import Mathlib

/-!
Verification of the vibelint repository's warning-fingerprint cache
(wizard script and ESLint plugin) and the ratemyshit plugin registry.

The TypeScript sources are shallowly embedded as pure Lean functions.
Effects (filesystem reads, the sha-256 digest, `path.relative`, user
prompts) are passed in as explicit function arguments, so every
definition is executable on concrete inputs.
-/

namespace Vibelint

/-- `lineContent.trim()`: strip leading and trailing whitespace.
(Defined over the character list so that it evaluates by kernel
reduction.) -/
def strTrim (s : String) : String :=
  String.mk (((s.data.dropWhile Char.isWhitespace).reverse.dropWhile
    Char.isWhitespace).reverse)

/-- `path.replace(/\\/g, "/")`: replace every backslash character with a
forward slash. -/
def replaceBackslashes (s : String) : String :=
  String.mk (s.data.map (fun c => if c = '\\' then '/' else c))

/-- `content.split("\n")` over a character list. -/
def splitOnChar (c : Char) : List Char → List (List Char)
  | [] => [[]]
  | x :: xs =>
    let rest := splitOnChar c xs
    if x = c then [] :: rest
    else
      match rest with
      | [] => [[x]]
      | r :: rs => (x :: r) :: rs

/-- `content.split("\n")`: the list of lines of a string. -/
def splitLines (s : String) : List String :=
  (splitOnChar '\n' s.data).map String.mk

/-- Identity of a single lint diagnostic (interface `WarningFingerprint`). -/
structure WarningFingerprint where
  file : String
  ruleId : String
  codeHash : String
  message : String
deriving DecidableEq, Repr

/-- `computeCodeHash`: trims the line and hashes it.  The sha-256 digest is
abstracted as the function argument `hashF`. -/
def computeCodeHash (hashF : String → String) (lineContent : String) : String :=
  hashF (strTrim lineContent)

/-- `createFingerprint` (identical in the wizard and in the plugin):
the path is made relative to the working directory (abstracted as `rel`)
and backslashes are replaced by forward slashes; a null/undefined or
empty rule id is collapsed to `"unknown"` by `ruleId || "unknown"`. -/
def createFingerprint (rel : String → String) (hashF : String → String)
    (filePath : String) (ruleId : Option String) (message lineContent : String) :
    WarningFingerprint :=
  { file := replaceBackslashes (rel filePath)
    ruleId := match ruleId with
      | none => "unknown"
      | some s => if s = "" then "unknown" else s
    codeHash := computeCodeHash hashF lineContent
    message := message }

/-- `fingerprintMatches`: field-by-field equality test. -/
def fingerprintMatches (fp1 fp2 : WarningFingerprint) : Bool :=
  fp1.file == fp2.file && fp1.ruleId == fp2.ruleId &&
    fp1.codeHash == fp2.codeHash && fp1.message == fp2.message

end Vibelint

namespace Wizard

open Vibelint

/-- Persisted approval ledger (interface `CacheFile` of the wizard). -/
structure CacheFile where
  version : String
  eslintConfigHash : String
  approvedWarnings : List WarningFingerprint
deriving DecidableEq, Repr

/-- `CACHE_VERSION` constant of the wizard. -/
def CACHE_VERSION : String := "1.1"

/-- Outcome of reading + JSON-parsing + zod-validating the cache file:
`missing` is ENOENT, `unreadable` covers any other read error, a JSON
parse error or a schema-validation failure, `ok` is a schema-valid file. -/
inductive CacheReadResult where
  | missing
  | unreadable
  | ok (parsed : CacheFile)
deriving DecidableEq, Repr

/-- `loadCache` of the wizard: a version mismatch or any failure yields a
fresh empty cache; a falsy (empty) stored config hash is replaced by the
current one. -/
def loadCache (currentConfigHash : String) (r : CacheReadResult) : CacheFile :=
  match r with
  | .ok parsed =>
    if parsed.version ≠ CACHE_VERSION then
      { version := CACHE_VERSION, eslintConfigHash := currentConfigHash,
        approvedWarnings := [] }
    else if parsed.eslintConfigHash = "" then
      { parsed with eslintConfigHash := currentConfigHash }
    else parsed
  | .missing =>
    { version := CACHE_VERSION, eslintConfigHash := currentConfigHash,
      approvedWarnings := [] }
  | .unreadable =>
    { version := CACHE_VERSION, eslintConfigHash := currentConfigHash,
      approvedWarnings := [] }

/-- `readSourceLine`: returns the 1-indexed line of the file, the empty
string when the index is out of range or the file cannot be read.
`fs` maps a path to the file's content when readable. -/
def readSourceLine (fs : String → Option String) (filePath : String)
    (lineNumber : Nat) : String :=
  match fs filePath with
  | none => ""
  | some content =>
    let lines := splitLines content
    if 0 < lineNumber ∧ lineNumber ≤ lines.length then
      lines.getD (lineNumber - 1) ""
    else ""

/-- One entry of the ESLint JSON output's `messages` array. -/
structure ESLintMessage where
  ruleId : Option String
  severity : Nat
  message : String
  line : Nat
  column : Nat
  source : Option String
deriving DecidableEq, Repr

/-- One entry of the ESLint JSON output (per-file result). -/
structure ESLintFileResult where
  filePath : String
  messages : List ESLintMessage
deriving DecidableEq, Repr

/-- One collected warning of `processWarnings` (the display-only
`codeContext` block is omitted). -/
structure CollectedWarning where
  fingerprint : WarningFingerprint
  filePath : String
  line : Nat
  column : Nat
  ruleId : String
  message : String
  codeSnippet : String
deriving DecidableEq, Repr

/-- The line content used for fingerprinting: `msg.source ||
readSourceLine(...)` — the empty string is falsy in JavaScript, so an
empty `source` also falls back to reading the file. -/
def lineContentOf (fs : String → Option String) (filePath : String)
    (m : ESLintMessage) : String :=
  match m.source with
  | some s => if s = "" then readSourceLine fs filePath m.line else s
  | none => readSourceLine fs filePath m.line

/-- The warning-collection loop of `processWarnings`: only messages with
`severity === 1` are fingerprinted; severity-2 messages are skipped. -/
def collectWarnings (rel hashF : String → String) (fs : String → Option String)
    (results : List ESLintFileResult) : List CollectedWarning :=
  (results.map (fun r =>
    (r.messages.filter (fun m => m.severity == 1)).map (fun m =>
      let lineContent := lineContentOf fs r.filePath m
      { fingerprint := createFingerprint rel hashF r.filePath m.ruleId m.message lineContent
        filePath := r.filePath
        line := m.line
        column := m.column
        ruleId := (match m.ruleId with
          | none => "unknown"
          | some s => if s = "" then "unknown" else s)
        message := m.message
        codeSnippet := strTrim lineContent }))).flatten

/-- The new-warning filter of `processWarnings`: warnings whose
fingerprint matches no approved fingerprint. -/
def newWarningsOf (cache : CacheFile) (warnings : List CollectedWarning) :
    List CollectedWarning :=
  warnings.filter (fun w =>
    !(cache.approvedWarnings.any (fun a => fingerprintMatches a w.fingerprint)))

/-- A user decision for one new warning in the interactive loop. -/
inductive Action where
  | approve
  | reject
  | skip
deriving DecidableEq, Repr

/-- Outcome of the interactive approval loop.  `aborted` models a prompt
failure or a missing TTY (`process.exit(1)` mid-loop); `disk` is the
content last written by `saveCache`, `none` when no save happened. -/
inductive LoopOut where
  | aborted (disk : Option CacheFile) (cache : CacheFile)
  | done (cache : CacheFile) (disk : Option CacheFile)
      (rejected : List CollectedWarning)
deriving DecidableEq, Repr

/-- The interactive approval loop of `processWarnings`: approving pushes
the fingerprint and saves the cache immediately; rejecting records the
warning; skipping does nothing.  `decisions i = none` models a prompt
failure at step `i` (saves are assumed to succeed here; save failure is
modeled separately by `saveCacheFs`). -/
def approvalLoop (decisions : Nat → Option Action) :
    List CollectedWarning → Nat → CacheFile → Option CacheFile →
    List CollectedWarning → LoopOut
  | [], _, cache, disk, rejected => .done cache disk rejected
  | w :: rest, i, cache, disk, rejected =>
    match decisions i with
    | none => .aborted disk cache
    | some .approve =>
      let cache' := { cache with
        approvedWarnings := cache.approvedWarnings ++ [w.fingerprint] }
      approvalLoop decisions rest (i + 1) cache' (some cache') rejected
    | some .reject => approvalLoop decisions rest (i + 1) cache disk (rejected ++ [w])
    | some .skip => approvalLoop decisions rest (i + 1) cache disk rejected

/-- The pruning step of `processWarnings`: keep only approved
fingerprints present in the current warning set.  The source compares
`JSON.stringify` images; since both sides are objects with the same four
string fields in the same key order and JSON string encoding is
injective, that comparison coincides with structural equality. -/
def pruneCache (cache : CacheFile) (current : List WarningFingerprint) : CacheFile :=
  { cache with
    approvedWarnings := cache.approvedWarnings.filter (fun a => decide (a ∈ current)) }

/-- The config-hash reconciliation of `processWarnings`:
on a hash mismatch the user is prompted; `confirm = none` models a
missing TTY or prompt failure (exit), `some false` a decline (exit),
`some true` updates only the stored hash. -/
def reconcileConfig (cache : CacheFile) (currentConfigHash : String)
    (confirm : Option Bool) : Option CacheFile :=
  if cache.eslintConfigHash ≠ currentConfigHash then
    match confirm with
    | some true => some { cache with eslintConfigHash := currentConfigHash }
    | _ => none
  else some cache

/-- Result of one wizard invocation: the process exit code, the content
of the cache file on disk (`none` = the file was never written), and the
in-memory cache at the end. -/
structure RunResult where
  exitCode : Nat
  savedCache : Option CacheFile
  finalCache : CacheFile
deriving DecidableEq, Repr

/-- `processWarnings` after config reconciliation and the ESLint run:
no warnings at all saves the cache unchanged and exits 0; all warnings
already approved returns without saving; otherwise the interactive loop
runs, any rejection exits 1 (without pruning), and only the
all-approved-or-skipped path prunes and saves. -/
def runCore (cache : CacheFile) (warnings : List CollectedWarning)
    (decisions : Nat → Option Action) : RunResult :=
  if warnings.isEmpty then
    { exitCode := 0, savedCache := some cache, finalCache := cache }
  else
    let newWarnings := newWarningsOf cache warnings
    if newWarnings.isEmpty then
      { exitCode := 0, savedCache := none, finalCache := cache }
    else
      match approvalLoop decisions newWarnings 0 cache none [] with
      | .aborted disk c => { exitCode := 1, savedCache := disk, finalCache := c }
      | .done cache' disk rejected =>
        if rejected.isEmpty then
          let pruned := pruneCache cache' (warnings.map (fun w => w.fingerprint))
          { exitCode := 0, savedCache := some pruned, finalCache := pruned }
        else
          { exitCode := 1, savedCache := disk, finalCache := cache' }

/-- The whole `processWarnings` invocation: load the cache, reconcile the
config hash (declining or a prompt failure exits 1 before ESLint runs),
then process the collected warnings. -/
def processWarnings (rel hashF : String → String) (fs : String → Option String)
    (currentConfigHash : String) (readResult : CacheReadResult)
    (confirm : Option Bool) (results : List ESLintFileResult)
    (decisions : Nat → Option Action) : RunResult :=
  let cache0 := loadCache currentConfigHash readResult
  match reconcileConfig cache0 currentConfigHash confirm with
  | none => { exitCode := 1, savedCache := none, finalCache := cache0 }
  | some cache1 =>
    runCore cache1 (collectWarnings rel hashF fs results) decisions

/-- The relevant slice of filesystem state for `saveCache`: the content of
the cache file and of its temp file (`none` = the file does not exist). -/
structure FsState where
  cacheFile : Option String
  tempFile : Option String
deriving DecidableEq, Repr

/-- Failure injection for `saveCache`: whether the `writeFile` to the temp
file or the `rename` over the cache file fails. -/
inductive SaveFailure where
  | noFail
  | writeFails
  | renameFails
deriving DecidableEq, Repr

/-- Outcome of `saveCache`: success, or a thrown error together with the
filesystem state left behind. -/
inductive SaveResult where
  | success (fs' : FsState)
  | failure (err : String) (fs' : FsState)
deriving DecidableEq, Repr

/-- `saveCache` of the wizard: write the serialized cache to
`<cache>.tmp`, then rename it over the cache file.  On any failure the
temp file is unlinked (errors ignored) and an error is thrown; the
rename is the only step that touches the cache file itself. -/
def saveCacheFs (fs : FsState) (content : String) (fail : SaveFailure) : SaveResult :=
  match fail with
  | .noFail =>
    -- writeFile tmp succeeds, rename succeeds: tmp replaces the cache file
    .success { cacheFile := some content, tempFile := none }
  | .writeFails =>
    -- writeFile tmp throws; catch block unlinks the (partial) tmp and rethrows
    .failure "Failed to save cache file" { cacheFile := fs.cacheFile, tempFile := none }
  | .renameFails =>
    -- tmp was written, rename throws; catch block unlinks tmp and rethrows
    .failure "Failed to save cache file" { cacheFile := fs.cacheFile, tempFile := none }

/-- The entry point's catch-all: a thrown save error terminates the
invocation with exit code 1, success with 0. -/
def saveExitCode (r : SaveResult) : Nat :=
  match r with
  | .success _ => 0
  | .failure _ _ => 1

end Wizard

namespace Plugin

open Vibelint

/-- A diagnostic object handed to the plugin's `postprocess` hook: every
field is optional in the source's type. -/
structure PMessage where
  ruleId : Option String
  severity : Option Nat
  message : Option String
  line : Option Nat
  source : Option String
deriving DecidableEq, Repr

/-- Outcome of reading the plugin's cache file.  The plugin validates no
schema: `ok` carries whatever `parsed.approvedWarnings || []` yields. -/
inductive PCacheRead where
  | missing
  | unreadable
  | ok (approved : List WarningFingerprint)
deriving DecidableEq, Repr

/-- `loadCache` of the plugin: a missing, unreadable or unparsable cache
file yields the empty approved list. -/
def pLoadCache (r : PCacheRead) : List WarningFingerprint :=
  match r with
  | .missing => []
  | .unreadable => []
  | .ok approved => approved

/-- The fingerprint computed for one message inside
`filterApprovedMessages`: `message.source || readSourceLine(filename,
message.line || 0)` and `message.message || ""` (JavaScript falsiness:
an empty string and an absent value both fall through). -/
def messageFingerprint (rel hashF : String → String) (fs : String → Option String)
    (filename : String) (m : PMessage) : WarningFingerprint :=
  let lineContent := match m.source with
    | some s => if s = "" then Wizard.readSourceLine fs filename (m.line.getD 0) else s
    | none => Wizard.readSourceLine fs filename (m.line.getD 0)
  createFingerprint rel hashF filename m.ruleId (m.message.getD "") lineContent

/-- The per-message keep decision of `filterApprovedMessages`: a message
that is neither severity 1 nor severity 2 is always kept; otherwise it
is kept exactly when no approved fingerprint matches it. -/
def pKeep (rel hashF : String → String) (fs : String → Option String)
    (approved : List WarningFingerprint) (filename : String) (m : PMessage) : Bool :=
  if ¬(m.severity = some 1 ∨ m.severity = some 2) then
    true
  else
    !(approved.any (fun a =>
      fingerprintMatches a (messageFingerprint rel hashF fs filename m)))

/-- `filterApprovedMessages` of the plugin: an empty approved set, an
empty filename or an empty message list short-circuits to the input. -/
def filterApprovedMessages (rel hashF : String → String)
    (fs : String → Option String) (approved : List WarningFingerprint)
    (messages : List PMessage) (filename : String) : List PMessage :=
  if approved.length == 0 then messages
  else if filename = "" ∨ messages.isEmpty then messages
  else messages.filter (pKeep rel hashF fs approved filename)

/-- The `postprocess` hook shared by the js/ts/jsx/tsx processors:
flatten the nested message array and filter it against the cache loaded
from disk (`filename || ""`). -/
def postprocessHook (rel hashF : String → String) (fs : String → Option String)
    (cacheRead : PCacheRead) (nested : List (List PMessage))
    (filename : Option String) : List PMessage :=
  filterApprovedMessages rel hashF fs (pLoadCache cacheRead) nested.flatten
    (filename.getD "")

end Plugin

namespace Registry

/-- A registered ratemyshit plugin (`detect` is supplied separately to
`executeAll` as a pure outcome function). -/
structure RPlugin where
  id : String
  enabled : Bool
  dependencies : List String
deriving DecidableEq, Repr

/-- `this.plugins.get(depId)` over the registration list: the first
plugin with the given id. -/
def findById (reg : List RPlugin) (i : String) : Option RPlugin :=
  reg.find? (fun p => p.id == i)

/-- The mutable state of `resolveExecutionOrder`'s depth-first search:
the `visited` set, the `visiting` recursion stack and the output list.
The two JavaScript `Set`s are kept as lists; the source only ever
queries them through `has`, to which a duplicate append (a `Set.add` of
a present element is a no-op) makes no observable difference. -/
structure VisitState where
  visited : List String
  visiting : List String
  result : List RPlugin
deriving DecidableEq, Repr

/-- The dependency loop inside `visit`: look each dependency id up in
the registry and recurse (via `v`) into enabled ones; missing or
disabled dependencies are skipped. -/
def visitDeps (reg : List RPlugin) (v : RPlugin → VisitState → VisitState) :
    List String → VisitState → VisitState
  | [], s => s
  | d :: rest, s =>
    let s' := match findById reg d with
      | some dep => if dep.enabled then v dep s else s
      | none => s
    visitDeps reg v rest s'

/-- The recursive `visit` of `resolveExecutionOrder`.  A plugin found on
the recursion stack (`visiting`) signals a cycle: it is pushed
immediately (unless already visited) and the cycle is broken.  `fuel`
bounds the recursion depth; `reg.length + 1` is always enough because
`visiting` grows by one per level and holds distinct registry ids. -/
def visit (reg : List RPlugin) (fuel : Nat) (p : RPlugin) (s : VisitState) :
    VisitState :=
  match fuel with
  | 0 => s
  | Nat.succ f =>
    if p.id ∈ s.visiting then
      if p.id ∈ s.visited then s
      else { s with visited := s.visited ++ [p.id], result := s.result ++ [p] }
    else if p.id ∈ s.visited then s
    else
      let s1 : VisitState := { s with visiting := s.visiting ++ [p.id] }
      let s2 := visitDeps reg (fun q st => visit reg f q st) p.dependencies s1
      { visited := s2.visited ++ [p.id], visiting := s2.visiting.erase p.id,
        result := s2.result ++ [p] }

/-- The top-level loop of `resolveExecutionOrder` over the enabled
plugins. -/
def visitAll (reg : List RPlugin) (fuel : Nat) :
    List RPlugin → VisitState → VisitState
  | [], s => s
  | p :: rest, s =>
    visitAll reg fuel rest (if p.id ∈ s.visited then s else visit reg fuel p s)

/-- `resolveExecutionOrder`: depth-first topological sort over the
enabled plugins. -/
def resolveExecutionOrder (reg : List RPlugin) : List RPlugin :=
  (visitAll reg (reg.length + 1) (reg.filter (fun p => p.enabled))
    { visited := [], visiting := [], result := [] }).result

/-- Per-weight finding counts (`countFindingsByWeight` shape). -/
structure WeightCounts where
  weight5 : Nat
  weight4 : Nat
  weight3 : Nat
  weight2 : Nat
  weight1 : Nat
deriving DecidableEq, Repr

/-- A finding in the weight-based generation of the result model (the
shape produced by `executeAll`'s catch handler). -/
structure FindingW where
  message : String
  weight : Nat
  fixable : Bool
deriving DecidableEq, Repr

/-- A plugin result as stored by `executeAll`. -/
structure PluginResultW where
  counts : WeightCounts
  findings : List FindingW
  recommendations : List String
deriving DecidableEq, Repr

/-- Outcome of one `detect` call: a result, or a thrown exception with
its message. -/
inductive DetectOutcome where
  | ok (r : PluginResultW)
  | throws (msg : String)
deriving DecidableEq, Repr

/-- The synthetic result built by `executeAll`'s catch handler: zero
counts and a single weight-5 (catastrophic) finding attributed to the
failing plugin. -/
def syntheticFailureResult (pluginId errMsg : String) : PluginResultW :=
  { counts := { weight5 := 0, weight4 := 0, weight3 := 0, weight2 := 0, weight1 := 0 }
    findings := [{ message := "Plugin " ++ pluginId ++ " failed to execute: " ++ errMsg,
                   weight := 5, fixable := false }]
    recommendations := ["Fix the error in plugin " ++ pluginId] }

/-- One iteration of `executeAll`'s loop: the `detect` call wrapped in
try/catch. -/
def execEntry (detect : String → DetectOutcome) (p : RPlugin) :
    String × PluginResultW :=
  match detect p.id with
  | .ok r => (p.id, r)
  | .throws m => (p.id, syntheticFailureResult p.id m)

/-- `executeAll`: run every plugin sequentially in resolved order,
catching per-plugin exceptions; the association list is the `results`
map in insertion order. -/
def executeAll (reg : List RPlugin) (detect : String → DetectOutcome) :
    List (String × PluginResultW) :=
  (resolveExecutionOrder reg).map (execEntry detect)

/-- The per-plugin dependency obligation used to state topological
correctness: every enabled, registered dependency already occurs among
the ids `seen` so far. -/
def depsSatisfied (reg : List RPlugin) (seen : List String) (p : RPlugin) : Prop :=
  ∀ d ∈ p.dependencies, ∀ q, findById reg d = some q → q.enabled = true →
    d ∈ seen

/-- An execution list is well ordered when every element's enabled,
registered dependencies occur strictly before it. -/
def goodFrom (reg : List RPlugin) : List String → List RPlugin → Prop
  | _, [] => True
  | seen, p :: rest => depsSatisfied reg seen p ∧ goodFrom reg (seen ++ [p.id]) rest

end Registry

namespace Vibelint

theorem fingerprintMatches_iff (fp1 fp2 : WarningFingerprint) :
    fingerprintMatches fp1 fp2 = true ↔ fp1 = fp2 := by
  cases fp1; cases fp2
  simp [fingerprintMatches, WarningFingerprint.mk.injEq, and_assoc]

/-- C4: fingerprinting is deterministic in (file, rule id, message,
trimmed line text): diagnostics agreeing on those four inputs get equal
fingerprints regardless of line number (the line number is not an input
of `createFingerprint`; only the line's trimmed text is hashed), and two
fingerprints are equal iff all four stored fields are equal, which is
exactly the `fingerprintMatches` test. -/
theorem claim_C4_fingerprint_deterministic (rel hashF : String → String) :
    (∀ (f : String) (r : Option String) (m l1 l2 : String),
      strTrim l1 = strTrim l2 →
      createFingerprint rel hashF f r m l1 = createFingerprint rel hashF f r m l2)
    ∧ (∀ fp1 fp2 : WarningFingerprint,
        fp1 = fp2 ↔ (fp1.file = fp2.file ∧ fp1.ruleId = fp2.ruleId ∧
          fp1.codeHash = fp2.codeHash ∧ fp1.message = fp2.message))
    ∧ (∀ fp1 fp2 : WarningFingerprint, fingerprintMatches fp1 fp2 = true ↔ fp1 = fp2) := by
  refine ⟨?_, ?_, fun fp1 fp2 => fingerprintMatches_iff fp1 fp2⟩
  · intro f r m l1 l2 htrim
    simp [createFingerprint, computeCodeHash, htrim]
  · intro fp1 fp2
    cases fp1; cases fp2
    simp [WarningFingerprint.mk.injEq]

/-- Witness for C4 at a concrete input: two lines differing only in
surrounding whitespace (as after a line-number drift re-indentation)
give equal fingerprints. -/
theorem claim_C4_witness :
    (strTrim "  x = 1" = strTrim "x = 1 ")
    ∧ createFingerprint id id "src/a.ts" (some "no-var") "msg" "  x = 1"
      = createFingerprint id id "src/a.ts" (some "no-var") "msg" "x = 1 " :=
  ⟨by decide,
   (claim_C4_fingerprint_deterministic id id).1 "src/a.ts" (some "no-var") "msg"
     "  x = 1" "x = 1 " (by decide)⟩

/-- C10: a missing (null/undefined) rule id and the empty-string rule id
are both collapsed to the literal `"unknown"` by `ruleId || "unknown"`;
any nonempty rule id is stored verbatim. -/
theorem claim_C10_unknown_ruleId (rel hashF : String → String) :
    (∀ f m l, (createFingerprint rel hashF f none m l).ruleId = "unknown")
    ∧ (∀ f m l, (createFingerprint rel hashF f (some "") m l).ruleId = "unknown")
    ∧ (∀ f s m l, s ≠ "" → (createFingerprint rel hashF f (some s) m l).ruleId = s) := by
  refine ⟨?_, ?_, ?_⟩
  · intro f m l; simp [createFingerprint]
  · intro f m l; simp [createFingerprint]
  · intro f s m l hs; simp [createFingerprint, hs]

/-- Witness for C10 at a concrete nonempty rule id. -/
theorem claim_C10_witness :
    ("no-var" ≠ "")
    ∧ (createFingerprint id id "a.ts" (some "no-var") "m" "l").ruleId = "no-var" :=
  ⟨by decide,
   (claim_C10_unknown_ruleId id id).2.2 "a.ts" "no-var" "m" "l" (by decide)⟩

end Vibelint

namespace Wizard

open Vibelint

/-- C5: loading the cache is total (never fails the run): a version
mismatch yields a fresh empty cache, and a missing or
unreadable/schema-invalid cache file likewise yields an empty cache. -/
theorem claim_C5_load_never_fails :
    (∀ h c, c.version ≠ CACHE_VERSION →
      loadCache h (.ok c) =
        { version := CACHE_VERSION, eslintConfigHash := h, approvedWarnings := [] })
    ∧ (∀ h, loadCache h .missing =
        { version := CACHE_VERSION, eslintConfigHash := h, approvedWarnings := [] })
    ∧ (∀ h, loadCache h .unreadable =
        { version := CACHE_VERSION, eslintConfigHash := h, approvedWarnings := [] }) := by
  refine ⟨?_, fun h => rfl, fun h => rfl⟩
  intro h c hv
  simp [loadCache, hv]

/-- Witness for C5 at a concrete version-mismatched cache file. -/
theorem claim_C5_witness :
    (("0.9" : String) ≠ CACHE_VERSION)
    ∧ loadCache "h" (.ok ⟨"0.9", "x", [⟨"a", "b", "c", "d"⟩]⟩)
      = { version := CACHE_VERSION, eslintConfigHash := "h", approvedWarnings := [] } :=
  ⟨by decide,
   claim_C5_load_never_fails.1 "h" ⟨"0.9", "x", [⟨"a", "b", "c", "d"⟩]⟩ (by decide)⟩

/-- C6: saving the cache writes a temp file then renames it over the
cache file; on success the cache file holds the new content and the
temp file is gone; on any failure the temp file is cleaned up, the
original cache file is untouched, and the invocation exits non-zero. -/
theorem claim_C6_save_atomic (fs : FsState) (content : String) (fail : SaveFailure) :
    (fail = .noFail →
      saveCacheFs fs content fail
        = .success { cacheFile := some content, tempFile := none }
      ∧ saveExitCode (saveCacheFs fs content fail) = 0)
    ∧ (fail ≠ .noFail →
      ∃ e, saveCacheFs fs content fail
          = .failure e { cacheFile := fs.cacheFile, tempFile := none }
        ∧ saveExitCode (saveCacheFs fs content fail) = 1) := by
  cases fail with
  | noFail => exact ⟨fun _ => ⟨rfl, rfl⟩, fun h => absurd rfl h⟩
  | writeFails =>
    exact ⟨fun h => (nomatch h), fun _ => ⟨"Failed to save cache file", rfl, rfl⟩⟩
  | renameFails =>
    exact ⟨fun h => (nomatch h), fun _ => ⟨"Failed to save cache file", rfl, rfl⟩⟩

/-- Helper for C1: the interactive loop, when every decision is approve
or skip, finishes without rejections, only appends fingerprints of the
processed warnings to the approved list, and leaves version and config
hash unchanged. -/
theorem approvalLoop_no_reject (decisions : Nat → Option Action)
    (hdec : ∀ i, decisions i = some .approve ∨ decisions i = some .skip) :
    ∀ (ws : List CollectedWarning) (i : Nat) (cache : CacheFile)
      (disk : Option CacheFile) (rejected : List CollectedWarning),
      ∃ c' d' t, approvalLoop decisions ws i cache disk rejected = .done c' d' rejected
        ∧ c'.version = cache.version
        ∧ c'.eslintConfigHash = cache.eslintConfigHash
        ∧ c'.approvedWarnings = cache.approvedWarnings ++ t
        ∧ ∀ fp ∈ t, fp ∈ ws.map (fun w => w.fingerprint) := by
  intro ws
  induction ws with
  | nil =>
    intro i cache disk rejected
    exact ⟨cache, disk, [], rfl, rfl, rfl, by simp, by simp⟩
  | cons w rest ih =>
    intro i cache disk rejected
    rcases hdec i with hd | hd
    · obtain ⟨c', d', t, heq, hv, hh, ha, hmem⟩ := ih (i + 1)
        { cache with approvedWarnings := cache.approvedWarnings ++ [w.fingerprint] }
        (some { cache with approvedWarnings := cache.approvedWarnings ++ [w.fingerprint] })
        rejected
      refine ⟨c', d', w.fingerprint :: t, ?_, hv, hh, ?_, ?_⟩
      · rw [approvalLoop, hd]
        exact heq
      · rw [ha]
        simp
      · intro fp hfp
        rcases List.mem_cons.mp hfp with h | h
        · simp [h]
        · have := hmem fp h
          simp only [List.map_cons, List.mem_cons]
          exact Or.inr this
    · obtain ⟨c', d', t, heq, hv, hh, ha, hmem⟩ := ih (i + 1) cache disk rejected
      refine ⟨c', d', t, ?_, hv, hh, ha, ?_⟩
      · rw [approvalLoop, hd]
        exact heq
      · intro fp hfp
        have := hmem fp hfp
        simp only [List.map_cons, List.mem_cons]
        exact Or.inr this

/-- C1 (counterexample): pruning is not unconditional.  A run that finds
no warnings at all takes the early `saveCache(cache); return` path and
never prunes: here the approved fingerprint for `b.ts` has no matching
diagnostic in the (empty) current lint output, the run completes with
exit code 0, yet the fingerprint is still in the saved cache. -/
theorem claim_C1_counterexample :
    collectWarnings id id (fun _ => none) [] = []
    ∧ processWarnings id id (fun _ => none) "h"
        (.ok ⟨"1.1", "h", [⟨"b.ts", "r", "y", "m"⟩]⟩) (some true) []
        (fun _ => some .skip)
      = ⟨0, some ⟨"1.1", "h", [⟨"b.ts", "r", "y", "m"⟩]⟩,
          ⟨"1.1", "h", [⟨"b.ts", "r", "y", "m"⟩]⟩⟩ := by
  decide

/-- C1 (amended): on runs that reach the final reconciliation step — at
least one warning found, at least one of them new, and every prompt
answered approve or skip — the pruning is unconditional: the saved
cache's approved set contains only fingerprints with a matching current
diagnostic, and every previously approved fingerprint with a matching
current diagnostic is retained. -/
theorem claim_C1_amended (cache : CacheFile) (warnings : List CollectedWarning)
    (decisions : Nat → Option Action)
    (hw : warnings ≠ [])
    (hnew : newWarningsOf cache warnings ≠ [])
    (hdec : ∀ i, decisions i = some .approve ∨ decisions i = some .skip) :
    ∃ c, runCore cache warnings decisions = ⟨0, some c, c⟩
      ∧ (∀ fp ∈ c.approvedWarnings, fp ∈ warnings.map (fun w => w.fingerprint))
      ∧ (∀ fp ∈ cache.approvedWarnings,
          fp ∈ warnings.map (fun w => w.fingerprint) → fp ∈ c.approvedWarnings) := by
  obtain ⟨c', d', t, heq, hv, hh, ha, hmem⟩ :=
    approvalLoop_no_reject decisions hdec (newWarningsOf cache warnings) 0 cache none []
  have h1 : ¬(warnings.isEmpty = true) := by simp [List.isEmpty_iff, hw]
  have h2 : ¬((newWarningsOf cache warnings).isEmpty = true) := by
    simp [List.isEmpty_iff, hnew]
  refine ⟨pruneCache c' (warnings.map (fun w => w.fingerprint)), ?_, ?_, ?_⟩
  · simp only [runCore, if_neg h1, if_neg h2, heq, List.isEmpty_nil, if_true]
  · intro fp hfp
    simp only [pruneCache, List.mem_filter, decide_eq_true_eq] at hfp
    exact hfp.2
  · intro fp hfp hcur
    have hc' : fp ∈ c'.approvedWarnings := by
      rw [ha]; exact List.mem_append_left _ hfp
    simp only [pruneCache, List.mem_filter, decide_eq_true_eq]
    exact ⟨hc', hcur⟩

/-- Witness for C1 (amended) at a concrete input: cache approves
fingerprints for `a.ts` and `b.ts`; the current run produces the `a.ts`
warning and a new `c.ts` warning, which is approved; the pruned saved
cache keeps `a.ts`, adds `c.ts` and drops the stale `b.ts`. -/
theorem claim_C1_amended_witness :
    (([⟨⟨"a.ts", "r", "x", "m"⟩, "a.ts", 1, 1, "r", "m", "s"⟩,
       ⟨⟨"c.ts", "r", "z", "m"⟩, "c.ts", 1, 1, "r", "m", "s"⟩] :
        List CollectedWarning) ≠ []
     ∧ newWarningsOf ⟨"1.1", "h", [⟨"a.ts", "r", "x", "m"⟩, ⟨"b.ts", "r", "y", "m"⟩]⟩
        [⟨⟨"a.ts", "r", "x", "m"⟩, "a.ts", 1, 1, "r", "m", "s"⟩,
         ⟨⟨"c.ts", "r", "z", "m"⟩, "c.ts", 1, 1, "r", "m", "s"⟩] ≠ [])
    ∧ ∃ c, runCore ⟨"1.1", "h", [⟨"a.ts", "r", "x", "m"⟩, ⟨"b.ts", "r", "y", "m"⟩]⟩
          [⟨⟨"a.ts", "r", "x", "m"⟩, "a.ts", 1, 1, "r", "m", "s"⟩,
           ⟨⟨"c.ts", "r", "z", "m"⟩, "c.ts", 1, 1, "r", "m", "s"⟩]
          (fun _ => some .approve) = ⟨0, some c, c⟩
        ∧ (∀ fp ∈ c.approvedWarnings,
            fp ∈ ([⟨⟨"a.ts", "r", "x", "m"⟩, "a.ts", 1, 1, "r", "m", "s"⟩,
                   ⟨⟨"c.ts", "r", "z", "m"⟩, "c.ts", 1, 1, "r", "m", "s"⟩] :
              List CollectedWarning).map (fun w => w.fingerprint))
        ∧ (∀ fp ∈ ([⟨"a.ts", "r", "x", "m"⟩, ⟨"b.ts", "r", "y", "m"⟩] :
              List WarningFingerprint),
            fp ∈ ([⟨⟨"a.ts", "r", "x", "m"⟩, "a.ts", 1, 1, "r", "m", "s"⟩,
                   ⟨⟨"c.ts", "r", "z", "m"⟩, "c.ts", 1, 1, "r", "m", "s"⟩] :
              List CollectedWarning).map (fun w => w.fingerprint) →
            fp ∈ c.approvedWarnings) :=
  ⟨⟨by decide, by decide⟩,
   claim_C1_amended ⟨"1.1", "h", [⟨"a.ts", "r", "x", "m"⟩, ⟨"b.ts", "r", "y", "m"⟩]⟩
     [⟨⟨"a.ts", "r", "x", "m"⟩, "a.ts", 1, 1, "r", "m", "s"⟩,
      ⟨⟨"c.ts", "r", "z", "m"⟩, "c.ts", 1, 1, "r", "m", "s"⟩]
     (fun _ => some .approve) (by decide) (by decide) (fun _ => Or.inl rfl)⟩

/-- C3: on a config-hash mismatch, declining (or a missing TTY/prompt
failure) aborts the whole invocation with exit code 1 and no write to
the cache file; accepting updates only the stored config hash, keeping
the approved set unchanged, and the run proceeds with it. -/
theorem claim_C3_config_gate (rel hashF : String → String)
    (fs : String → Option String) (h : String) (r : CacheReadResult)
    (results : List ESLintFileResult) (decisions : Nat → Option Action)
    (hmism : (loadCache h r).eslintConfigHash ≠ h) :
    processWarnings rel hashF fs h r (some false) results decisions
      = ⟨1, none, loadCache h r⟩
    ∧ processWarnings rel hashF fs h r none results decisions
      = ⟨1, none, loadCache h r⟩
    ∧ reconcileConfig (loadCache h r) h (some true)
      = some { loadCache h r with eslintConfigHash := h }
    ∧ ({ loadCache h r with eslintConfigHash := h }).approvedWarnings
      = (loadCache h r).approvedWarnings
    ∧ processWarnings rel hashF fs h r (some true) results decisions
      = runCore { loadCache h r with eslintConfigHash := h }
          (collectWarnings rel hashF fs results) decisions := by
  refine ⟨?_, ?_, ?_, rfl, ?_⟩
  · simp [processWarnings, reconcileConfig, hmism]
  · simp [processWarnings, reconcileConfig, hmism]
  · simp [reconcileConfig, hmism]
  · simp [processWarnings, reconcileConfig, hmism]

/-- Witness for C3 at a concrete input: stored hash `"old"`, current
hash `"new"`. -/
theorem claim_C3_witness :
    ((loadCache "new" (.ok ⟨"1.1", "old", [⟨"a", "b", "c", "d"⟩]⟩)).eslintConfigHash ≠ "new")
    ∧ (processWarnings id id (fun _ => none) "new"
          (.ok ⟨"1.1", "old", [⟨"a", "b", "c", "d"⟩]⟩) (some false) [] (fun _ => none)
        = ⟨1, none, loadCache "new" (.ok ⟨"1.1", "old", [⟨"a", "b", "c", "d"⟩]⟩)⟩
      ∧ processWarnings id id (fun _ => none) "new"
          (.ok ⟨"1.1", "old", [⟨"a", "b", "c", "d"⟩]⟩) none [] (fun _ => none)
        = ⟨1, none, loadCache "new" (.ok ⟨"1.1", "old", [⟨"a", "b", "c", "d"⟩]⟩)⟩
      ∧ reconcileConfig (loadCache "new" (.ok ⟨"1.1", "old", [⟨"a", "b", "c", "d"⟩]⟩))
          "new" (some true)
        = some { loadCache "new" (.ok ⟨"1.1", "old", [⟨"a", "b", "c", "d"⟩]⟩) with
            eslintConfigHash := "new" }
      ∧ ({ loadCache "new" (.ok ⟨"1.1", "old", [⟨"a", "b", "c", "d"⟩]⟩) with
            eslintConfigHash := "new" }).approvedWarnings
        = (loadCache "new" (.ok ⟨"1.1", "old", [⟨"a", "b", "c", "d"⟩]⟩)).approvedWarnings
      ∧ processWarnings id id (fun _ => none) "new"
          (.ok ⟨"1.1", "old", [⟨"a", "b", "c", "d"⟩]⟩) (some true) [] (fun _ => none)
        = runCore { loadCache "new" (.ok ⟨"1.1", "old", [⟨"a", "b", "c", "d"⟩]⟩) with
              eslintConfigHash := "new" }
            (collectWarnings id id (fun _ => none) []) (fun _ => none)) :=
  ⟨by decide,
   claim_C3_config_gate id id (fun _ => none) "new"
     (.ok ⟨"1.1", "old", [⟨"a", "b", "c", "d"⟩]⟩) [] (fun _ => none) (by decide)⟩

/-- Witness for C6 at a concrete failing rename: the original cache file
content survives and the exit code is 1. -/
theorem claim_C6_witness :
    ((SaveFailure.renameFails ≠ SaveFailure.noFail)
      ∧ ∃ e, saveCacheFs { cacheFile := some "old", tempFile := none } "new" .renameFails
          = .failure e { cacheFile := some "old", tempFile := none }
        ∧ saveExitCode (saveCacheFs { cacheFile := some "old", tempFile := none }
            "new" .renameFails) = 1) :=
  ⟨by decide,
   (claim_C6_save_atomic { cacheFile := some "old", tempFile := none } "new"
     .renameFails).2 (by decide)⟩

end Wizard

namespace Plugin

open Vibelint

/-- C9: the postprocess hook fails open: an absent or malformed cache
file loads as an empty approved set, in which case the hook returns the
input messages (flattened, untouched); and in every case a message is
only ever suppressed when it exactly matches some approved
fingerprint. -/
theorem claim_C9_fail_open (rel hashF : String → String)
    (fs : String → Option String) :
    (pLoadCache .missing = [] ∧ pLoadCache .unreadable = [])
    ∧ (∀ (nested : List (List PMessage)) (filename : Option String)
        (r : PCacheRead), pLoadCache r = [] →
        postprocessHook rel hashF fs r nested filename = nested.flatten)
    ∧ (∀ (approved : List WarningFingerprint) (messages : List PMessage)
        (filename : String) (m : PMessage),
        m ∈ messages →
        m ∉ filterApprovedMessages rel hashF fs approved messages filename →
        ∃ fp ∈ approved,
          fingerprintMatches fp (messageFingerprint rel hashF fs filename m) = true) := by
  refine ⟨⟨rfl, rfl⟩, ?_, ?_⟩
  · intro nested filename r hr
    simp [postprocessHook, filterApprovedMessages, hr]
  · intro approved messages filename m hm hnot
    by_cases h1 : approved.length == 0
    · rw [filterApprovedMessages, if_pos h1] at hnot
      exact absurd hm hnot
    · by_cases h2 : filename = "" ∨ messages.isEmpty
      · rw [filterApprovedMessages, if_neg h1, if_pos h2] at hnot
        exact absurd hm hnot
      · rw [filterApprovedMessages, if_neg h1, if_neg h2] at hnot
        have hkeep : pKeep rel hashF fs approved filename m = false := by
          rcases Bool.eq_false_or_eq_true (pKeep rel hashF fs approved filename m) with h | h
          · exact absurd (List.mem_filter.mpr ⟨hm, h⟩) hnot
          · exact h
        rw [pKeep] at hkeep
        split at hkeep
        · exact absurd hkeep (by simp)
        · simp only [Bool.not_eq_false'] at hkeep
          obtain ⟨fp, hfp, hmatch⟩ := List.any_eq_true.mp hkeep
          exact ⟨fp, hfp, hmatch⟩

/-- Witness for C9 at a concrete input: the one suppressed message
exactly matches the one approved fingerprint. -/
theorem claim_C9_witness :
    ((⟨some "r", some 1, some "msg", some 1, some "code"⟩ : PMessage) ∈
        ([⟨some "r", some 1, some "msg", some 1, some "code"⟩] : List PMessage)
     ∧ (⟨some "r", some 1, some "msg", some 1, some "code"⟩ : PMessage) ∉
        filterApprovedMessages id id (fun _ => none) [⟨"a.ts", "r", "code", "msg"⟩]
          [⟨some "r", some 1, some "msg", some 1, some "code"⟩] "a.ts")
    ∧ ∃ fp ∈ ([⟨"a.ts", "r", "code", "msg"⟩] : List WarningFingerprint),
        fingerprintMatches fp (messageFingerprint id id (fun _ => none) "a.ts"
          ⟨some "r", some 1, some "msg", some 1, some "code"⟩) = true :=
  ⟨⟨by decide, by decide⟩,
   (claim_C9_fail_open id id (fun _ => none)).2.2 [⟨"a.ts", "r", "code", "msg"⟩]
     [⟨some "r", some 1, some "msg", some 1, some "code"⟩] "a.ts"
     ⟨some "r", some 1, some "msg", some 1, some "code"⟩ (by decide) (by decide)⟩

end Plugin

namespace Vibelint

/-- C2 (counterexample): the wizard's `processWarnings` does not treat
severity 1 and severity 2 alike: its collection loop guards on
`msg.severity === 1`, so an error (severity 2) is never fingerprinted,
while the identical message at severity 1 is. -/
theorem claim_C2_counterexample :
    Wizard.collectWarnings id id (fun _ => none)
      [⟨"f.ts", [⟨some "r", 2, "m", 1, 1, some "c"⟩]⟩] = []
    ∧ (Wizard.collectWarnings id id (fun _ => none)
        [⟨"f.ts", [⟨some "r", 1, "m", 1, 1, some "c"⟩]⟩]).length = 1 := by
  decide

/-- C2 (amended): the plugin's `filterApprovedMessages` treats severity
1 and severity 2 identically (the keep decision is the same function of
the remaining fields), but the wizard's `processWarnings` fingerprints
only severity-1 messages — dropping every other severity, including
severity-2 errors, from the whole warning pipeline. -/
theorem claim_C2_amended (rel hashF : String → String)
    (fs : String → Option String) :
    (∀ (approved : List WarningFingerprint) (filename : String)
      (m : Plugin.PMessage),
      Plugin.pKeep rel hashF fs approved filename { m with severity := some 1 }
        = Plugin.pKeep rel hashF fs approved filename { m with severity := some 2 })
    ∧ (∀ results, Wizard.collectWarnings rel hashF fs results
        = Wizard.collectWarnings rel hashF fs (results.map (fun r =>
            { r with messages :=
                r.messages.filter (fun msg => msg.severity == 1) }))) := by
  constructor
  · intro approved filename m
    simp [Plugin.pKeep, Plugin.messageFingerprint]
  · intro results
    simp [Wizard.collectWarnings, List.map_map, Function.comp_def,
      List.filter_filter]

end Vibelint

namespace Registry

theorem findById_mem {reg : List RPlugin} {q : RPlugin} {d : String}
    (h : findById reg d = some q) : q ∈ reg ∧ q.id = d := by
  refine ⟨List.mem_of_find?_eq_some h, ?_⟩
  have := List.find?_some h
  simpa using this

theorem findById_self {reg : List RPlugin}
    (hnd : (reg.map (fun p => p.id)).Nodup) {p : RPlugin} (hp : p ∈ reg) :
    findById reg p.id = some p := by
  induction reg with
  | nil => cases hp
  | cons a rest ih =>
    rw [List.map_cons] at hnd
    obtain ⟨hnotin, hnd'⟩ := List.nodup_cons.mp hnd
    rcases List.mem_cons.mp hp with rfl | hp'
    · simp [findById, List.find?]
    · have hane : ¬(a.id == p.id) = true := by
        simp only [beq_iff_eq]
        intro he
        exact hnotin (he ▸ List.mem_map_of_mem (fun (q : RPlugin) => q.id) hp')
      simp only [findById, List.find?, hane]
      exact ih hnd' hp'

theorem nodup_subset_length {l1 l2 : List String} (h1 : l1.Nodup)
    (hsub : ∀ x ∈ l1, x ∈ l2) : l1.length ≤ l2.length :=
  (List.Nodup.subperm h1 hsub).length_le

theorem goodFrom_append (reg : List RPlugin) (p : RPlugin) :
    ∀ (l : List RPlugin) (seen : List String),
      goodFrom reg seen (l ++ [p]) ↔
        (goodFrom reg seen l ∧ depsSatisfied reg (seen ++ l.map (fun q => q.id)) p) := by
  intro l
  induction l with
  | nil => intro seen; simp [goodFrom]
  | cons a l' ih =>
    intro seen
    rw [List.cons_append]
    simp only [goodFrom]
    rw [ih (seen ++ [a.id])]
    constructor
    · rintro ⟨hds, hgf, hdsp⟩
      exact ⟨⟨hds, hgf⟩, by simpa [List.append_assoc] using hdsp⟩
    · rintro ⟨⟨hds, hgf⟩, hdsp⟩
      exact ⟨hds, hgf, by simpa [List.append_assoc] using hdsp⟩

theorem goodFrom_middle (reg : List RPlugin) (p : RPlugin) (l2 : List RPlugin) :
    ∀ (l1 : List RPlugin) (seen : List String),
      goodFrom reg seen (l1 ++ p :: l2) →
      depsSatisfied reg (seen ++ l1.map (fun q => q.id)) p := by
  intro l1
  induction l1 with
  | nil =>
    intro seen h
    simp only [List.nil_append, goodFrom] at h
    simpa using h.1
  | cons a l1' ih =>
    intro seen h
    rw [List.cons_append] at h
    simp only [goodFrom] at h
    have := ih (seen ++ [a.id]) h.2
    simpa [List.append_assoc] using this

/-- Generic invariant-preservation lemma for the dependency loop of
`visit`: a state predicate `P` and a transitive step relation `Q`
preserved by each recursive call are preserved by the whole loop, and
every enabled registered dependency in the list ends up visited. -/
theorem visitDeps_pres (reg : List RPlugin)
    (v : RPlugin → VisitState → VisitState)
    (P : VisitState → Prop) (Q : VisitState → VisitState → Prop)
    (hrefl : ∀ s, Q s s)
    (htrans : ∀ s1 s2 s3, Q s1 s2 → Q s2 s3 → Q s1 s3)
    (hmono : ∀ s1 s2, Q s1 s2 → ∀ x ∈ s1.visited, x ∈ s2.visited) :
    ∀ (deps : List String) (s : VisitState),
      (∀ dep st, dep.id ∈ deps → findById reg dep.id = some dep →
        dep.enabled = true → P st →
        P (v dep st) ∧ Q st (v dep st) ∧ dep.id ∈ (v dep st).visited) →
      P s →
      P (visitDeps reg v deps s) ∧ Q s (visitDeps reg v deps s)
      ∧ ∀ d ∈ deps, ∀ q, findById reg d = some q → q.enabled = true →
          q.id ∈ (visitDeps reg v deps s).visited := by
  intro deps
  induction deps with
  | nil =>
    intro s hv hP
    exact ⟨hP, hrefl s, by simp⟩
  | cons d rest ih =>
    intro s hv hP
    cases hfd : findById reg d with
    | none =>
      have hstep : visitDeps reg v (d :: rest) s = visitDeps reg v rest s := by
        simp [visitDeps, hfd]
      rw [hstep]
      obtain ⟨hP', hQ', hcov⟩ :=
        ih s (fun dep st hdep => hv dep st (List.mem_cons_of_mem d hdep)) hP
      refine ⟨hP', hQ', ?_⟩
      intro d' hd' q hq hqe
      rcases List.mem_cons.mp hd' with rfl | hd'
      · rw [hq] at hfd; cases hfd
      · exact hcov d' hd' q hq hqe
    | some dep =>
      by_cases hen : dep.enabled = true
      · have hdid : dep.id = d := (findById_mem hfd).2
        have hfd' : findById reg dep.id = some dep := by rw [hdid]; exact hfd
        obtain ⟨hP1, hQ1, hv1⟩ :=
          hv dep s (by rw [hdid]; exact List.mem_cons_self d rest) hfd' hen hP
        have hstep : visitDeps reg v (d :: rest) s
            = visitDeps reg v rest (v dep s) := by
          simp [visitDeps, hfd, hen]
        rw [hstep]
        obtain ⟨hP2, hQ2, hcov⟩ :=
          ih (v dep s) (fun dep' st hdep' => hv dep' st (List.mem_cons_of_mem d hdep')) hP1
        refine ⟨hP2, htrans _ _ _ hQ1 hQ2, ?_⟩
        intro d' hd' q hq hqe
        rcases List.mem_cons.mp hd' with rfl | hd'
        · rw [hfd] at hq
          injection hq with he
          subst he
          exact hmono _ _ hQ2 dep.id hv1
        · exact hcov d' hd' q hq hqe
      · have hstep : visitDeps reg v (d :: rest) s = visitDeps reg v rest s := by
          simp [visitDeps, hfd, hen]
        rw [hstep]
        obtain ⟨hP', hQ', hcov⟩ :=
          ih s (fun dep' st hdep' => hv dep' st (List.mem_cons_of_mem d hdep')) hP
        refine ⟨hP', hQ', ?_⟩
        intro d' hd' q hq hqe
        rcases List.mem_cons.mp hd' with rfl | hd'
        · rw [hfd] at hq
          injection hq with he
          subst he
          exact absurd hqe hen
        · exact hcov d' hd' q hq hqe

/-- Behaviour of `visit` needed for completeness (no acyclicity
assumed): the visited list stays the id image of the result list, the
recursion stack is restored, the result only grows, every result entry
is its own registry lookup, and the visited plugin ends up visited. -/
theorem visit_basic (reg : List RPlugin) :
    ∀ (fuel : Nat) (p : RPlugin) (s : VisitState),
      findById reg p.id = some p → p.enabled = true →
      s.visited = s.result.map (fun q => q.id) →
      s.visiting.Nodup →
      (∀ x ∈ s.visiting, x ∈ reg.map (fun q => q.id)) →
      (∀ q ∈ s.result, findById reg q.id = some q) →
      reg.length + 1 ≤ fuel + s.visiting.length →
      (visit reg fuel p s).visited = (visit reg fuel p s).result.map (fun q => q.id)
      ∧ (visit reg fuel p s).visiting = s.visiting
      ∧ (∃ t, (visit reg fuel p s).result = s.result ++ t)
      ∧ (∀ q ∈ (visit reg fuel p s).result, findById reg q.id = some q)
      ∧ p.id ∈ (visit reg fuel p s).visited := by
  intro fuel
  induction fuel with
  | zero =>
    intro p s hfp hpe hvm hndv hsub hcomp hfuel
    exfalso
    have hlen := nodup_subset_length hndv hsub
    rw [List.length_map] at hlen
    omega
  | succ f ih =>
    intro p s hfp hpe hvm hndv hsub hcomp hfuel
    by_cases h1 : p.id ∈ s.visiting
    · by_cases h2 : p.id ∈ s.visited
      · have hstep : visit reg (f + 1) p s = s := by simp [visit, h1, h2]
        rw [hstep]
        exact ⟨hvm, rfl, ⟨[], by simp⟩, hcomp, h2⟩
      · have hstep : visit reg (f + 1) p s
            = { s with visited := s.visited ++ [p.id], result := s.result ++ [p] } := by
          simp [visit, h1, h2]
        rw [hstep]
        refine ⟨by simp [hvm], rfl, ⟨[p], rfl⟩, ?_, by simp⟩
        intro q hq
        rcases List.mem_append.mp hq with h | h
        · exact hcomp q h
        · simp only [List.mem_singleton] at h; subst h; exact hfp
    · by_cases h2 : p.id ∈ s.visited
      · have hstep : visit reg (f + 1) p s = s := by simp [visit, h1, h2]
        rw [hstep]
        exact ⟨hvm, rfl, ⟨[], by simp⟩, hcomp, h2⟩
      · have hpm : p.id ∈ reg.map (fun q => q.id) :=
          List.mem_map_of_mem (fun (q : RPlugin) => q.id) (findById_mem hfp).1
        have hndV0 : (s.visiting ++ [p.id]).Nodup := by
          refine List.Nodup.append hndv (List.nodup_singleton _) ?_
          intro x hx hx'
          simp only [List.mem_singleton] at hx'
          subst hx'
          exact h1 hx
        have hsubV0 : ∀ x ∈ s.visiting ++ [p.id], x ∈ reg.map (fun q => q.id) := by
          intro x hx
          rcases List.mem_append.mp hx with h | h
          · exact hsub x h
          · simp only [List.mem_singleton] at h; subst h; exact hpm
        obtain ⟨hP2, hQ2, hcov⟩ :=
          visitDeps_pres reg (fun q st => visit reg f q st)
            (fun st => st.visited = st.result.map (fun q => q.id)
              ∧ st.visiting = s.visiting ++ [p.id]
              ∧ (∀ q ∈ st.result, findById reg q.id = some q))
            (fun s1 s2 => s2.visiting = s1.visiting
              ∧ (∃ t, s2.result = s1.result ++ t)
              ∧ (∀ x ∈ s1.visited, x ∈ s2.visited))
            (fun s0 => ⟨rfl, ⟨[], by simp⟩, fun x hx => hx⟩)
            (fun s1 s2 s3 h12 h23 => by
              obtain ⟨ha, ⟨t1, hb⟩, hc⟩ := h12
              obtain ⟨hd, ⟨t2, he⟩, hf⟩ := h23
              exact ⟨hd.trans ha, ⟨t1 ++ t2, by rw [he, hb, List.append_assoc]⟩,
                fun x hx => hf x (hc x hx)⟩)
            (fun s1 s2 h => h.2.2)
            p.dependencies
            { s with visiting := s.visiting ++ [p.id] }
            (fun dep st hdep hfdep hen hPst => by
              obtain ⟨hvm', hvis', hcomp'⟩ := hPst
              have hfuel' : reg.length + 1 ≤ f + st.visiting.length := by
                rw [hvis', List.length_append, List.length_singleton]
                omega
              obtain ⟨c1, c2, c3, c4, c5⟩ :=
                ih dep st hfdep hen hvm' (hvis' ▸ hndV0) (hvis' ▸ hsubV0) hcomp' hfuel'
              refine ⟨⟨c1, by rw [c2, hvis'], c4⟩, ⟨c2, c3, ?_⟩, c5⟩
              intro x hx
              obtain ⟨t, ht⟩ := c3
              rw [c1, ht, List.map_append]
              exact List.mem_append_left _ (hvm' ▸ hx))
            ⟨hvm, rfl, hcomp⟩
        have hstep : visit reg (f + 1) p s
            = { visited := (visitDeps reg (fun q st => visit reg f q st) p.dependencies
                  { s with visiting := s.visiting ++ [p.id] }).visited ++ [p.id],
                visiting := (visitDeps reg (fun q st => visit reg f q st) p.dependencies
                  { s with visiting := s.visiting ++ [p.id] }).visiting.erase p.id,
                result := (visitDeps reg (fun q st => visit reg f q st) p.dependencies
                  { s with visiting := s.visiting ++ [p.id] }).result ++ [p] } := by
          simp [visit, h1, h2]
        rw [hstep]
        obtain ⟨ha2, hb2, hc2⟩ := hP2
        obtain ⟨hq1, ⟨t, hq2⟩, hq3⟩ := hQ2
        refine ⟨by simp [ha2], ?_, ⟨t ++ [p], by rw [hq2]; simp⟩, ?_, by simp⟩
        · rw [hq1]
          show (s.visiting ++ [p.id]).erase p.id = s.visiting
          rw [List.erase_append_right _ h1]
          simp
        · intro q hq
          rcases List.mem_append.mp hq with h | h
          · exact hc2 q h
          · simp only [List.mem_singleton] at h; subst h; exact hfp

/-- Behaviour of the top-level loop of `resolveExecutionOrder`: the
state invariants are maintained and every listed plugin ends up
visited. -/
theorem visitAll_basic (reg : List RPlugin) (fuel : Nat)
    (hfuel : reg.length + 1 ≤ fuel) :
    ∀ (ps : List RPlugin) (s : VisitState),
      (∀ p ∈ ps, findById reg p.id = some p ∧ p.enabled = true) →
      s.visited = s.result.map (fun q => q.id) →
      s.visiting = [] →
      (∀ q ∈ s.result, findById reg q.id = some q) →
      (visitAll reg fuel ps s).visited
        = (visitAll reg fuel ps s).result.map (fun q => q.id)
      ∧ (visitAll reg fuel ps s).visiting = []
      ∧ (∀ q ∈ (visitAll reg fuel ps s).result, findById reg q.id = some q)
      ∧ (∃ t, (visitAll reg fuel ps s).result = s.result ++ t)
      ∧ (∀ p ∈ ps, p.id ∈ (visitAll reg fuel ps s).visited) := by
  intro ps
  induction ps with
  | nil =>
    intro s hps hvm hvis hcomp
    exact ⟨hvm, hvis, hcomp, ⟨[], by simp [visitAll]⟩, by simp⟩
  | cons p rest ih =>
    intro s hps hvm hvis hcomp
    obtain ⟨hfp, hpe⟩ := hps p (List.mem_cons_self p rest)
    by_cases hin : p.id ∈ s.visited
    · have hstep : visitAll reg fuel (p :: rest) s = visitAll reg fuel rest s := by
        simp [visitAll, hin]
      rw [hstep]
      obtain ⟨a, b, c, d, e⟩ :=
        ih s (fun q hq => hps q (List.mem_cons_of_mem _ hq)) hvm hvis hcomp
      refine ⟨a, b, c, d, ?_⟩
      intro q hq
      rcases List.mem_cons.mp hq with rfl | hq'
      · obtain ⟨t, ht⟩ := d
        rw [a, ht, List.map_append]
        exact List.mem_append_left _ (hvm ▸ hin)
      · exact e q hq'
    · have hstep : visitAll reg fuel (p :: rest) s
          = visitAll reg fuel rest (visit reg fuel p s) := by
        simp [visitAll, hin]
      rw [hstep]
      obtain ⟨c1, c2, c3, c4, c5⟩ :=
        visit_basic reg fuel p s hfp hpe hvm (by rw [hvis]; exact List.nodup_nil)
          (by rw [hvis]; intro x hx; cases hx) hcomp
          (by rw [hvis]; simp; omega)
      obtain ⟨a, b, c, d, e⟩ :=
        ih (visit reg fuel p s) (fun q hq => hps q (List.mem_cons_of_mem _ hq))
          c1 (c2.trans hvis) c4
      refine ⟨a, b, c, ?_, ?_⟩
      · obtain ⟨t1, ht1⟩ := c3
        obtain ⟨t2, ht2⟩ := d
        exact ⟨t1 ++ t2, by rw [ht2, ht1, List.append_assoc]⟩
      · intro q hq
        rcases List.mem_cons.mp hq with rfl | hq'
        · obtain ⟨t2, ht2⟩ := d
          rw [a, ht2, List.map_append]
          exact List.mem_append_left _ (c1 ▸ c5)
        · exact e q hq'

/-- The resolved execution order consists of registry entries (each its
own lookup) and contains every enabled registered plugin. -/
theorem resolveOrder_basic (reg : List RPlugin)
    (hnd : (reg.map (fun q => q.id)).Nodup) :
    (∀ q ∈ resolveExecutionOrder reg, findById reg q.id = some q)
    ∧ (∀ p ∈ reg, p.enabled = true → p ∈ resolveExecutionOrder reg) := by
  have hall : ∀ p ∈ reg.filter (fun p => p.enabled),
      findById reg p.id = some p ∧ p.enabled = true := by
    intro p hp
    exact ⟨findById_self hnd (List.mem_of_mem_filter hp), List.of_mem_filter hp⟩
  obtain ⟨a, b, c, d, e⟩ :=
    visitAll_basic reg (reg.length + 1) (le_refl _) (reg.filter (fun p => p.enabled))
      { visited := [], visiting := [], result := [] } hall rfl rfl
      (by intro q hq; cases hq)
  constructor
  · intro q hq
    exact c q hq
  · intro p hp hpe
    have hid : p.id ∈ (visitAll reg (reg.length + 1) (reg.filter (fun p => p.enabled))
        { visited := [], visiting := [], result := [] }).visited :=
      e p (List.mem_filter.mpr ⟨hp, by simp [hpe]⟩)
    rw [a] at hid
    obtain ⟨q, hq, hqid⟩ := List.mem_map.mp hid
    have hq2 : findById reg p.id = some q := by rw [← hqid]; exact c q hq
    rw [findById_self hnd hp] at hq2
    injection hq2 with he
    rw [he]
    exact hq

/-- C8: a plugin whose `detect` throws gets exactly one synthetic
weight-5 (catastrophic) finding attributed to it in the results map,
the loop still produces one entry per resolved plugin, and every
enabled registered plugin gets a result entry — one plugin's failure
never aborts the run. -/
theorem claim_C8_plugin_failure_contained (reg : List RPlugin)
    (detect : String → DetectOutcome)
    (hnd : (reg.map (fun p => p.id)).Nodup) :
    (∀ p ∈ resolveExecutionOrder reg, ∀ m, detect p.id = .throws m →
      ((p.id, syntheticFailureResult p.id m) ∈ executeAll reg detect
       ∧ (syntheticFailureResult p.id m).findings
           = [{ message := "Plugin " ++ p.id ++ " failed to execute: " ++ m,
                weight := 5, fixable := false }]))
    ∧ (executeAll reg detect).length = (resolveExecutionOrder reg).length
    ∧ (∀ p ∈ reg, p.enabled = true →
        ∃ res, (p.id, res) ∈ executeAll reg detect) := by
  refine ⟨?_, by simp [executeAll], ?_⟩
  · intro p hp m hm
    refine ⟨?_, rfl⟩
    have hentry : execEntry detect p = (p.id, syntheticFailureResult p.id m) := by
      simp [execEntry, hm]
    have hmem : execEntry detect p ∈ executeAll reg detect :=
      List.mem_map_of_mem (execEntry detect) hp
    rw [hentry] at hmem
    exact hmem
  · intro p hp hpe
    have hmem := (resolveOrder_basic reg hnd).2 p hp hpe
    refine ⟨(execEntry detect p).2, ?_⟩
    have h1 : execEntry detect p ∈ executeAll reg detect :=
      List.mem_map_of_mem (execEntry detect) hmem
    have h2 : execEntry detect p = (p.id, (execEntry detect p).2) := by
      cases hdet : detect p.id <;> simp [execEntry, hdet]
    rw [h2] at h1
    exact h1

/-- Behaviour of `visit` under an acyclic dependency graph, witnessed
by a rank function that strictly decreases along enabled registered
dependencies: in addition to the basic invariants, the visited list
stays duplicate-free, newly visited ids never come from the recursion
stack, and the result list keeps every plugin after all of its enabled
registered dependencies (`goodFrom`). -/
theorem visit_full (reg : List RPlugin) (rank : String → Nat)
    (hrank : ∀ p, p ∈ reg → p.enabled = true → ∀ d ∈ p.dependencies,
      ∀ q, findById reg d = some q → q.enabled = true → rank q.id < rank p.id) :
    ∀ (fuel : Nat) (p : RPlugin) (s : VisitState),
      findById reg p.id = some p → p.enabled = true →
      s.visited = s.result.map (fun q => q.id) →
      s.visited.Nodup →
      s.visiting.Nodup →
      (∀ x ∈ s.visiting, x ∈ reg.map (fun q => q.id)) →
      (∀ q ∈ s.result, findById reg q.id = some q) →
      goodFrom reg [] s.result →
      (∀ x ∈ s.visiting, rank p.id < rank x) →
      reg.length + 1 ≤ fuel + s.visiting.length →
      (visit reg fuel p s).visited = (visit reg fuel p s).result.map (fun q => q.id)
      ∧ (visit reg fuel p s).visited.Nodup
      ∧ (visit reg fuel p s).visiting = s.visiting
      ∧ (∃ t, (visit reg fuel p s).result = s.result ++ t)
      ∧ (∀ x ∈ (visit reg fuel p s).visited, x ∈ s.visited ∨ x ∉ s.visiting)
      ∧ (∀ q ∈ (visit reg fuel p s).result, findById reg q.id = some q)
      ∧ goodFrom reg [] (visit reg fuel p s).result
      ∧ p.id ∈ (visit reg fuel p s).visited := by
  intro fuel
  induction fuel with
  | zero =>
    intro p s hfp hpe hvm hndvd hndv hsub hcomp hgf hchain hfuel
    exfalso
    have hlen := nodup_subset_length hndv hsub
    rw [List.length_map] at hlen
    omega
  | succ f ih =>
    intro p s hfp hpe hvm hndvd hndv hsub hcomp hgf hchain hfuel
    by_cases h1 : p.id ∈ s.visiting
    · exact absurd (hchain p.id h1) (lt_irrefl _)
    · by_cases h2 : p.id ∈ s.visited
      · have hstep : visit reg (f + 1) p s = s := by simp [visit, h1, h2]
        rw [hstep]
        exact ⟨hvm, hndvd, rfl, ⟨[], by simp⟩, fun x hx => Or.inl hx, hcomp, hgf, h2⟩
      · have hpmem : p ∈ reg := (findById_mem hfp).1
        have hpm : p.id ∈ reg.map (fun q => q.id) :=
          List.mem_map_of_mem (fun (q : RPlugin) => q.id) hpmem
        have hpV0 : p.id ∈ s.visiting ++ [p.id] := by simp
        have hndV0 : (s.visiting ++ [p.id]).Nodup := by
          refine List.Nodup.append hndv (List.nodup_singleton _) ?_
          intro x hx hx'
          simp only [List.mem_singleton] at hx'
          subst hx'
          exact h1 hx
        have hsubV0 : ∀ x ∈ s.visiting ++ [p.id], x ∈ reg.map (fun q => q.id) := by
          intro x hx
          rcases List.mem_append.mp hx with h | h
          · exact hsub x h
          · simp only [List.mem_singleton] at h; subst h; exact hpm
        obtain ⟨hP2, hQ2, hcov⟩ :=
          visitDeps_pres reg (fun q st => visit reg f q st)
            (fun st => st.visited = st.result.map (fun q => q.id)
              ∧ st.visited.Nodup
              ∧ st.visiting = s.visiting ++ [p.id]
              ∧ (∀ q ∈ st.result, findById reg q.id = some q)
              ∧ goodFrom reg [] st.result)
            (fun s1 s2 => s2.visiting = s1.visiting
              ∧ (∃ t, s2.result = s1.result ++ t)
              ∧ (∀ x ∈ s1.visited, x ∈ s2.visited)
              ∧ (∀ x ∈ s2.visited, x ∈ s1.visited ∨ x ∉ s.visiting ++ [p.id]))
            (fun s0 => ⟨rfl, ⟨[], by simp⟩, fun x hx => hx, fun x hx => Or.inl hx⟩)
            (fun s1 s2 s3 h12 h23 => by
              obtain ⟨ha, ⟨t1, hb⟩, hc, hd⟩ := h12
              obtain ⟨he, ⟨t2, hf⟩, hg, hh⟩ := h23
              refine ⟨he.trans ha, ⟨t1 ++ t2, by rw [hf, hb, List.append_assoc]⟩,
                fun x hx => hg x (hc x hx), ?_⟩
              intro x hx
              rcases hh x hx with h | h
              · exact hd x h
              · exact Or.inr h)
            (fun s1 s2 h => h.2.2.1)
            p.dependencies
            { s with visiting := s.visiting ++ [p.id] }
            (fun dep st hdep hfdep hen hPst => by
              obtain ⟨hvm', hndvd', hvis', hcomp', hgf'⟩ := hPst
              have hrankdep : rank dep.id < rank p.id :=
                hrank p hpmem hpe dep.id hdep dep hfdep hen
              have hchain' : ∀ x ∈ st.visiting, rank dep.id < rank x := by
                rw [hvis']
                intro x hx
                rcases List.mem_append.mp hx with h | h
                · exact hrankdep.trans (hchain x h)
                · simp only [List.mem_singleton] at h; subst h; exact hrankdep
              have hfuel' : reg.length + 1 ≤ f + st.visiting.length := by
                rw [hvis', List.length_append, List.length_singleton]
                omega
              obtain ⟨c1, c2, c3, c4, c5, c6, c7, c8⟩ :=
                ih dep st hfdep hen hvm' hndvd' (hvis' ▸ hndV0) (hvis' ▸ hsubV0)
                  hcomp' hgf' hchain' hfuel'
              refine ⟨⟨c1, c2, by rw [c3, hvis'], c6, c7⟩, ⟨c3, c4, ?_, ?_⟩, c8⟩
              · intro x hx
                obtain ⟨t, ht⟩ := c4
                rw [c1, ht, List.map_append]
                exact List.mem_append_left _ (hvm' ▸ hx)
              · intro x hx
                rcases c5 x hx with h | h
                · exact Or.inl h
                · rw [hvis'] at h
                  exact Or.inr h)
            ⟨hvm, hndvd, rfl, hcomp, hgf⟩
        have hstep : visit reg (f + 1) p s
            = { visited := (visitDeps reg (fun q st => visit reg f q st) p.dependencies
                  { s with visiting := s.visiting ++ [p.id] }).visited ++ [p.id],
                visiting := (visitDeps reg (fun q st => visit reg f q st) p.dependencies
                  { s with visiting := s.visiting ++ [p.id] }).visiting.erase p.id,
                result := (visitDeps reg (fun q st => visit reg f q st) p.dependencies
                  { s with visiting := s.visiting ++ [p.id] }).result ++ [p] } := by
          simp [visit, h1, h2]
        rw [hstep]
        obtain ⟨ha2, hb2, hc2, hd2, he2⟩ := hP2
        obtain ⟨hq1, ⟨t, hq2⟩, hq3, hq4⟩ := hQ2
        have hpnotin : p.id ∉ (visitDeps reg (fun q st => visit reg f q st) p.dependencies
            { s with visiting := s.visiting ++ [p.id] }).visited := by
          intro hmemv
          rcases hq4 p.id hmemv with h | h
          · exact h2 h
          · exact h hpV0
        refine ⟨by simp [ha2], ?_, ?_, ⟨t ++ [p], by rw [hq2]; simp⟩, ?_, ?_, ?_, by simp⟩
        · refine List.Nodup.append hb2 (List.nodup_singleton _) ?_
          intro x hx hx'
          simp only [List.mem_singleton] at hx'
          subst hx'
          exact hpnotin hx
        · rw [hq1]
          show (s.visiting ++ [p.id]).erase p.id = s.visiting
          rw [List.erase_append_right _ h1]
          simp
        · intro x hx
          rcases List.mem_append.mp hx with h | h
          · rcases hq4 x h with hl | hr
            · exact Or.inl hl
            · refine Or.inr ?_
              intro hxv
              exact hr (List.mem_append_left _ hxv)
          · simp only [List.mem_singleton] at h
            subst h
            exact Or.inr h1
        · intro q hq
          rcases List.mem_append.mp hq with h | h
          · exact hd2 q h
          · simp only [List.mem_singleton] at h; subst h; exact hfp
        · refine (goodFrom_append reg p _ []).mpr ⟨he2, ?_⟩
          intro d hd q hq hqe
          have hqid := hcov d hd q hq hqe
          have hdq : q.id = d := (findById_mem hq).2
          rw [hdq] at hqid
          rw [ha2] at hqid
          simpa using hqid

/-- Top-level loop behaviour under an acyclic (ranked) dependency
graph: the result list is well ordered and every listed plugin ends up
visited. -/
theorem visitAll_full (reg : List RPlugin) (rank : String → Nat)
    (hrank : ∀ p, p ∈ reg → p.enabled = true → ∀ d ∈ p.dependencies,
      ∀ q, findById reg d = some q → q.enabled = true → rank q.id < rank p.id)
    (fuel : Nat) (hfuel : reg.length + 1 ≤ fuel) :
    ∀ (ps : List RPlugin) (s : VisitState),
      (∀ p ∈ ps, findById reg p.id = some p ∧ p.enabled = true) →
      s.visited = s.result.map (fun q => q.id) →
      s.visited.Nodup →
      s.visiting = [] →
      (∀ q ∈ s.result, findById reg q.id = some q) →
      goodFrom reg [] s.result →
      (visitAll reg fuel ps s).visited
        = (visitAll reg fuel ps s).result.map (fun q => q.id)
      ∧ (visitAll reg fuel ps s).visited.Nodup
      ∧ (visitAll reg fuel ps s).visiting = []
      ∧ (∀ q ∈ (visitAll reg fuel ps s).result, findById reg q.id = some q)
      ∧ goodFrom reg [] (visitAll reg fuel ps s).result := by
  intro ps
  induction ps with
  | nil =>
    intro s hps hvm hndvd hvis hcomp hgf
    exact ⟨hvm, hndvd, hvis, hcomp, hgf⟩
  | cons p rest ih =>
    intro s hps hvm hndvd hvis hcomp hgf
    obtain ⟨hfp, hpe⟩ := hps p (List.mem_cons_self p rest)
    by_cases hin : p.id ∈ s.visited
    · have hstep : visitAll reg fuel (p :: rest) s = visitAll reg fuel rest s := by
        simp [visitAll, hin]
      rw [hstep]
      exact ih s (fun q hq => hps q (List.mem_cons_of_mem _ hq)) hvm hndvd hvis hcomp hgf
    · have hstep : visitAll reg fuel (p :: rest) s
          = visitAll reg fuel rest (visit reg fuel p s) := by
        simp [visitAll, hin]
      rw [hstep]
      obtain ⟨c1, c2, c3, c4, c5, c6, c7, c8⟩ :=
        visit_full reg rank hrank fuel p s hfp hpe hvm hndvd
          (by rw [hvis]; exact List.nodup_nil)
          (by rw [hvis]; intro x hx; cases hx) hcomp hgf
          (by rw [hvis]; intro x hx; cases hx)
          (by rw [hvis]; simp; omega)
      exact ih (visit reg fuel p s) (fun q hq => hps q (List.mem_cons_of_mem _ hq))
        c1 c2 (c3.trans hvis) c6 c7

/-- The resolved execution order is well ordered (`goodFrom`) whenever
the enabled dependency graph is acyclic, and each of its entries is its
own registry lookup. -/
theorem resolveOrder_full (reg : List RPlugin)
    (hnd : (reg.map (fun q => q.id)).Nodup) (rank : String → Nat)
    (hrank : ∀ p, p ∈ reg → p.enabled = true → ∀ d ∈ p.dependencies,
      ∀ q, findById reg d = some q → q.enabled = true → rank q.id < rank p.id) :
    goodFrom reg [] (resolveExecutionOrder reg)
    ∧ (∀ q ∈ resolveExecutionOrder reg, findById reg q.id = some q) := by
  have hall : ∀ p ∈ reg.filter (fun p => p.enabled),
      findById reg p.id = some p ∧ p.enabled = true := by
    intro p hp
    exact ⟨findById_self hnd (List.mem_of_mem_filter hp), List.of_mem_filter hp⟩
  obtain ⟨a, b, c, d, e⟩ :=
    visitAll_full reg rank hrank (reg.length + 1) (le_refl _)
      (reg.filter (fun p => p.enabled))
      { visited := [], visiting := [], result := [] } hall rfl List.nodup_nil rfl
      (by intro q hq; cases hq) trivial
  exact ⟨e, d⟩

/-- C7: for every acyclic dependency graph (witnessed by a rank
function strictly decreasing along enabled registered dependencies),
every enabled plugin `B` that an enabled plugin `A` depends on occurs
strictly before `A` in the resolved execution order, and `executeAll`
runs the plugins sequentially in exactly that order — so `B`'s detect
call completes before `A`'s begins. -/
theorem claim_C7_dependency_order (reg : List RPlugin) (A B : RPlugin)
    (rank : String → Nat)
    (hnd : (reg.map (fun p => p.id)).Nodup)
    (hrank : ∀ p, p ∈ reg → p.enabled = true → ∀ d ∈ p.dependencies,
      ∀ q, findById reg d = some q → q.enabled = true → rank q.id < rank p.id)
    (hA : A ∈ reg) (hAe : A.enabled = true)
    (hB : B ∈ reg) (hBe : B.enabled = true)
    (hdep : B.id ∈ A.dependencies) :
    ∃ l1 l2, resolveExecutionOrder reg = l1 ++ A :: l2 ∧ B ∈ l1
      ∧ ∀ detect, executeAll reg detect
          = l1.map (execEntry detect)
            ++ execEntry detect A :: l2.map (execEntry detect) := by
  obtain ⟨hgf, hcomp⟩ := resolveOrder_full reg hnd rank hrank
  have hAmem : A ∈ resolveExecutionOrder reg := (resolveOrder_basic reg hnd).2 A hA hAe
  obtain ⟨l1, l2, horder⟩ := List.append_of_mem hAmem
  have hds : depsSatisfied reg ([] ++ l1.map (fun q => q.id)) A :=
    goodFrom_middle reg A l2 l1 [] (horder ▸ hgf)
  have hfB : findById reg B.id = some B := findById_self hnd hB
  have hBid : B.id ∈ l1.map (fun q => q.id) := by
    simpa using hds B.id hdep B hfB hBe
  obtain ⟨b, hb, hbid⟩ := List.mem_map.mp hBid
  have hbcomp : findById reg b.id = some b :=
    hcomp b (by rw [horder]; exact List.mem_append_left _ hb)
  rw [hbid, hfB] at hbcomp
  injection hbcomp with he
  refine ⟨l1, l2, horder, ?_, ?_⟩
  · rw [he]; exact hb
  · intro detect
    rw [executeAll, horder]
    simp

/-- Witness for C7 at a concrete two-plugin registry where `a` depends
on `b`: `b` precedes `a` in the resolved order. -/
theorem claim_C7_witness :
    ∃ l1 l2, resolveExecutionOrder [⟨"a", true, ["b"]⟩, ⟨"b", true, []⟩]
        = l1 ++ (⟨"a", true, ["b"]⟩ : RPlugin) :: l2
      ∧ (⟨"b", true, []⟩ : RPlugin) ∈ l1
      ∧ ∀ detect, executeAll [⟨"a", true, ["b"]⟩, ⟨"b", true, []⟩] detect
          = l1.map (execEntry detect)
            ++ execEntry detect ⟨"a", true, ["b"]⟩ :: l2.map (execEntry detect) :=
  claim_C7_dependency_order [⟨"a", true, ["b"]⟩, ⟨"b", true, []⟩]
    ⟨"a", true, ["b"]⟩ ⟨"b", true, []⟩
    (fun s => if s = "a" then 1 else 0)
    (by decide)
    (by
      intro p hp hpe d hd q hq hqe
      rcases List.mem_cons.mp hp with rfl | hp'
      · simp only [List.mem_singleton] at hd
        subst hd
        have hfb : findById [(⟨"a", true, ["b"]⟩ : RPlugin), ⟨"b", true, []⟩] "b"
            = some ⟨"b", true, []⟩ := by decide
        rw [hfb] at hq
        injection hq with he
        subst he
        decide
      · rcases List.mem_cons.mp hp' with rfl | h
        · cases hd
        · cases h)
    (by decide) rfl (by decide) rfl (by decide)

/-- Witness for C8 at a concrete one-plugin registry whose detect
throws. -/
theorem claim_C8_witness :
    ("a", syntheticFailureResult "a" "boom") ∈
        executeAll [⟨"a", true, []⟩] (fun _ => DetectOutcome.throws "boom")
    ∧ (syntheticFailureResult "a" "boom").findings
        = [{ message := "Plugin " ++ "a" ++ " failed to execute: " ++ "boom",
             weight := 5, fixable := false }] :=
  (claim_C8_plugin_failure_contained [⟨"a", true, []⟩]
    (fun _ => DetectOutcome.throws "boom") (by decide)).1
    ⟨"a", true, []⟩ (by decide) "boom" rfl

end Registry
